import Mathlib

/-!
Verification development for the FieldNotes note-retrieval engine.

The definitions below are shallow embeddings of the JavaScript source:

* `Tag.createOrGet` from `server/data/models` (tag file): entity
  resolution with the type-priority merge rule.  The SQLite tag table is
  modelled as a list of rows in rowid (insertion) order together with the
  next fresh id; `get`/`all` queries become `List.find?`/`List.filter`.
* the best-tag selection of route `GET /api/tags/name/:name/entries`.
* `processLlmResponse` from the LLM integration module: the
  `RELEVANT_ENTRIES:[...]` citation-marker parser.  JavaScript strings are
  modelled as `List Char`; the regular expression `RELEVANT_ENTRIES:\[(.*?)\]`
  is implemented as a left-to-right scanner with a shortest (non-greedy)
  capture that excludes line terminators, exactly as the JS engine behaves
  on these patterns.
* `Entry.findSimilar`, its batched cosine-similarity scan, the bounded
  similarity cache and `Entry.updateEmbedding` from `server/data/models.js`.
  IEEE floats are modelled by exact rationals; a float similarity value
  `dot / (sqrt qss * sqrt ess)` is represented exactly by the pair
  `(dot, qss * ess)` (`SimVal`), and NaN results (zero magnitudes,
  malformed embeddings) are modelled by `Option` as `none`.
-/

namespace FieldNotes

/-! ### JavaScript string helpers -/

/-- Whitespace recognised by the model of `String.prototype.trim`
(the common ASCII whitespace actually produced by the LLM responses). -/
def isJsWS (c : Char) : Bool :=
  c == ' ' || c == '\t' || c == '\n' || c == '\r'

/-- Model of `s.trim()`: drop leading and trailing whitespace. -/
def jsTrim (l : List Char) : List Char :=
  ((l.dropWhile isJsWS).reverse.dropWhile isJsWS).reverse

/-- Lowercasing of a JS string (`toLowerCase` / SQLite `LOWER`), restricted
to the ASCII range both actually handle identically. -/
def lowerL (l : List Char) : List Char := l.map Char.toLower

/-- `startsWithL pat l` : does `l` begin with the pattern `pat`? -/
def startsWithL : List Char → List Char → Bool
  | [], _ => true
  | _ :: _, [] => false
  | p :: ps, c :: cs => p == c && startsWithL ps cs

/-- Contiguous-substring test, the semantics of SQL `LIKE '%pat%'`. -/
def containsSub (needle : List Char) : List Char → Bool
  | [] => needle.isEmpty
  | c :: cs => startsWithL needle (c :: cs) || containsSub needle cs

/-- Model of `String.prototype.split(sep)` for a one-character separator:
`split "" = [""]`, separators produce empty pieces. -/
def splitOnChar (sep : Char) : List Char → List (List Char)
  | [] => [[]]
  | c :: cs =>
    if c == sep then [] :: splitOnChar sep cs
    else
      match splitOnChar sep cs with
      | [] => [[c]]
      | p :: ps => (c :: p) :: ps

/-- Value of a maximal run of leading decimal digits, `none` if there is
no leading digit. -/
def leadDigits : List Char → Option Nat → Option Nat
  | c :: cs, acc =>
    if c.isDigit then
      leadDigits cs (some ((acc.getD 0) * 10 + (c.toNat - '0'.toNat)))
    else acc
  | [], acc => acc

/-- Model of JavaScript `parseInt(s, 10)`: skip leading whitespace, an
optional sign, then read the maximal run of decimal digits; the result is
`none` (JS `NaN`) when no digit follows.  Trailing garbage is ignored,
so `parseInt("2a") = 2`. -/
def jsParseInt (l : List Char) : Option Int :=
  match l.dropWhile isJsWS with
  | '-' :: rest => (leadDigits rest none).map (fun n => -(n : Int))
  | '+' :: rest => (leadDigits rest none).map (fun n => (n : Int))
  | rest => (leadDigits rest none).map (fun n => (n : Int))

/-! ### Tag model (`Tag.createOrGet`)

The tag table: rows in rowid order.  `run INSERT` appends with the next
fresh id, `get`/`all` with `WHERE` clauses become `find?`/`filter` over
the rows in order, `UPDATE ... WHERE id = ?` maps over the rows. -/

structure TagRow where
  id : Nat
  name : String
  type : String
  normalized_name : String
deriving DecidableEq, Repr

structure TagStore where
  rows : List TagRow
  nextId : Nat
deriving DecidableEq, Repr

/-- The numeric specificity ranks of the `typeHierarchy` object literal's
own entries (the table's own `default` entry is 0, which the `|| 0`
fallback also maps to 0), with 0 for every other string.

This is only the **numeric** part of the lookup `typeHierarchy[type]`:
a plain JS object literal also inherits the members of
`Object.prototype`, so for property names such as `"constructor"` or
`"toString"` the raw lookup yields a truthy non-number and `|| 0` does
not fire — `typePriority` below models the full lookup. -/
def typeRank (t : String) : Nat :=
  if t = "place" then 10
  else if t = "person" then 9
  else if t = "organization" then 8
  else if t = "event" then 7
  else if t = "object" then 6
  else if t = "activity" then 5
  else if t = "time" then 4
  else if t = "quantity" then 3
  else if t = "relation" then 2
  else if t = "entity" then 1
  else 0

/-- The fixed tag-type enumeration of the specification. -/
def coreTypes : List String :=
  ["person", "place", "organization", "event", "object",
   "activity", "time", "quantity", "relation", "entity"]

/-- The own property names of `Object.prototype` (ECMA-262), which a
plain object literal such as `typeHierarchy` inherits: looking any of
them up on the literal yields a truthy function (or, for `__proto__`,
an object), never a number. -/
def protoKeys : List String :=
  ["constructor", "hasOwnProperty", "isPrototypeOf", "propertyIsEnumerable",
   "toLocaleString", "toString", "valueOf", "__defineGetter__",
   "__defineSetter__", "__lookupGetter__", "__lookupSetter__", "__proto__"]

/-- The full JS lookup `typeHierarchy[t] || 0`: a number (`some rank`)
for the table's own entries and for absent keys (`undefined || 0 = 0`),
but an inherited truthy non-number (`none`) when `t` names an
`Object.prototype` member, because `|| 0` does not replace a truthy
value. -/
def typePriority (t : String) : Option Nat :=
  if t ∈ protoKeys then none else some (typeRank t)

/-- The comparison `newTypePriority <= existingTypePriority` of the
source: numeric when both priorities are numbers; when either side is an
inherited function/object, JS coerces it through `ToPrimitive`/`ToNumber`
to `NaN` and the comparison is false. -/
def jsLeq (a b : Option Nat) : Bool :=
  match a, b with
  | some x, some y => decide (x ≤ y)
  | _, _ => false

/-- Shallow embedding of `Tag.createOrGet(name, type, normalizedName)`.

Mirrors the source step by step: (1) `get` a row with the exact
`(normalized_name, type)` pair; (2) otherwise `all` rows with the same
`normalized_name` and, if any, compare the looked-up `typeHierarchy`
priorities of the proposed and stored types against the first one — the
source keeps it unchanged exactly when
`newTypePriority <= existingTypePriority` holds (`jsLeq`), and otherwise
`UPDATE`s its type in place and re-`get`s it by id.  Note the comparison
is false not only for a strictly higher numeric rank but also whenever
either lookup hits an inherited `Object.prototype` member (NaN
comparison), so such a proposed type also triggers the update.  (3) If
still nothing, `INSERT` a fresh row.  The returned tag is an `Option`
because the re-`get` after the update is a database read (it is always
`some` on a well-formed store). -/
def createOrGet (s : TagStore) (name ty key : String) : Option TagRow × TagStore :=
  match s.rows.find? (fun r => r.normalized_name == key && r.type == ty) with
  | some t => (some t, s)
  | none =>
    let step2 : Option TagRow × TagStore :=
      match s.rows.filter (fun r => r.normalized_name == key) with
      | [] => (none, s)
      | e :: _ =>
        if jsLeq (typePriority ty) (typePriority e.type) then (some e, s)
        else
          let rows' := s.rows.map (fun r => if r.id == e.id then { r with type := ty } else r)
          (rows'.find? (fun r => r.id == e.id), { s with rows := rows' })
    match step2 with
    | (some t, s1) => (some t, s1)
    | (none, s1) =>
      let row : TagRow := { id := s1.nextId, name := name, type := ty, normalized_name := key }
      (some row, { rows := s1.rows ++ [row], nextId := s1.nextId + 1 })

/-- Primary-key invariant of the tag table: row ids are distinct. -/
def IdsNodup (s : TagStore) : Prop := (s.rows.map (fun r => r.id)).Nodup

instance (s : TagStore) : Decidable (IdsNodup s) := by
  unfold IdsNodup; infer_instance

/-! ### Best-tag selection of `GET /api/tags/name/:name/entries`

The route first runs `Tag.search` (case-insensitive substring match on
name or normalized name), then picks one tag: exact case-insensitive name
matches sorted by type priority, else normalized-name matches sorted by
type priority, else the first substring match.  `Array.prototype.sort` is
stable in Node, and the comparator `(a, b) => rank b - rank a` induces the
same total preorder as the relation used here, so the stable
`List.insertionSort` computes the identical list. -/

/-- `Tag.search(query)`: SQL `LIKE '%q%'` over `LOWER(name)` and
`LOWER(normalized_name)` (for queries without LIKE wildcards). -/
def searchTags (q : String) (rows : List TagRow) : List TagRow :=
  rows.filter (fun t =>
    containsSub (lowerL q.toList) (lowerL t.name.toList) ||
    containsSub (lowerL q.toList) (lowerL t.normalized_name.toList))

/-- Descending type-priority order used by the route's `sort` calls. -/
def rankRel (a b : TagRow) : Prop := typeRank b.type ≤ typeRank a.type

instance : DecidableRel rankRel := fun a b => by
  unfold rankRel; infer_instance

/-- The exact (case-insensitive display-name) match tier of the route. -/
def exactTier (q : String) (rows : List TagRow) : List TagRow :=
  (searchTags q rows).filter (fun t => lowerL t.name.toList == lowerL q.toList)

/-- The normalized-name match tier of the route. -/
def normTier (q : String) (rows : List TagRow) : List TagRow :=
  (searchTags q rows).filter (fun t => lowerL t.normalized_name.toList == lowerL q.toList)

/-- Shallow embedding of the tag-selection logic of
`GET /api/tags/name/:name/entries`: `exactMatches[0]` after a priority
sort, else `normalizedMatches[0]` after a priority sort (only computed
when there is no exact match), else `matchingTags[0]`, else not found. -/
def bestTagForName (q : String) (rows : List TagRow) : Option TagRow :=
  let mt := searchTags q rows
  let exact := exactTier q rows
  if exact.isEmpty then
    let norm := normTier q rows
    if norm.isEmpty then mt.head?
    else (List.insertionSort rankRel norm).head?
  else (List.insertionSort rankRel exact).head?

/-- Specification-side selector: the earliest element of maximal
`typeRank` — what "highest specificity rank, ties broken by result
order" denotes. -/
def firstMaxRank : List TagRow → Option TagRow
  | [] => none
  | t :: ts =>
    match firstMaxRank ts with
    | none => some t
    | some u => if typeRank t.type < typeRank u.type then some u else some t

/-! ### The `RELEVANT_ENTRIES` citation-marker parser -/

/-- A candidate note as handed to `processLlmResponse` (only `id` and the
text are relevant to the parser). -/
structure PNote where
  id : Nat
  raw_text : String
deriving DecidableEq, Repr

/-- The literal text that must precede the capture group of
`RELEVANT_ENTRIES:\[(.*?)\]`. -/
def markerOpen : List Char := "RELEVANT_ENTRIES:[".toList

/-- `dropAfter pat l` returns the remainder of `l` after the pattern
`pat`, or `none` if `l` does not begin with `pat`. -/
def dropAfter : List Char → List Char → Option (List Char)
  | [], rest => some rest
  | _ :: _, [] => none
  | p :: ps, c :: cs => if c == p then dropAfter ps cs else none

/-- The non-greedy capture `(.*?)\]`: the shortest run of characters that
are neither `]` nor a line terminator (JS `.` does not match line
terminators), followed by `]`.  Returns the captured group and the
remaining input, or `none` if no `]` occurs before a line terminator or
the end of input. -/
def tryCapture : List Char → Option (List Char × List Char)
  | [] => none
  | c :: cs =>
    if c == ']' then some ([], cs)
    else if c == '\n' || c == '\r' then none
    else (tryCapture cs).map (fun p => (c :: p.1, p.2))

/-- First match of `RELEVANT_ENTRIES:\[(.*?)\]` scanning left to right:
returns `(before, group, after)`.  On a failed capture the JS engine
resumes the scan at the next position, which the recursive call models. -/
def findMarker : List Char → Option (List Char × List Char × List Char)
  | [] => none
  | c :: cs =>
    match dropAfter markerOpen (c :: cs) with
    | some afterOpen =>
      (match tryCapture afterOpen with
       | some (g, rest) => some ([], g, rest)
       | none => (findMarker cs).map (fun t => (c :: t.1, t.2.1, t.2.2)))
    | none => (findMarker cs).map (fun t => (c :: t.1, t.2.1, t.2.2))

/-- Fuelled worker for the global replace
`content.replace(/RELEVANT_ENTRIES:\[.*?\]/g, "")`: remove every match,
resuming after each match.  Each step removes a match of length at least
19 characters, so fuel `l.length + 1` is never exhausted and the fuel-zero
branch is unreachable from `stripMarkers`. -/
def stripMarkersF : Nat → List Char → List Char
  | 0, l => l
  | fuel + 1, l =>
    match findMarker l with
    | none => l
    | some (pre, _g, post) => pre ++ stripMarkersF fuel post

/-- `content.replace(/RELEVANT_ENTRIES:\[.*?\]/g, "")`. -/
def stripMarkers (l : List Char) : List Char := stripMarkersF (l.length + 1) l

/-- Shallow embedding of `processLlmResponse(content, entries)`.

The source matches `/RELEVANT_ENTRIES:\[(.*?)\]/` once; when the captured
group is truthy (non-empty) it splits it on commas, trims, drops empty
pieces, `parseInt`s each piece (dropping `NaN`s), converts to 0-based,
drops out-of-range indices and maps the rest to `entries[idx].id`.  In
every branch the final answer is the content with **all** marker
occurrences removed (`/g`) and then trimmed. -/
def processLlmResponse (content : List Char) (entries : List PNote) :
    List Char × List Nat :=
  match findMarker content with
  | some (_pre, g, _post) =>
    if g.isEmpty then (jsTrim (stripMarkers content), [])
    else
      let items := ((splitOnChar ',' g).map jsTrim).filter (fun s => !s.isEmpty)
      let idxs : List Int := items.filterMap (fun s => (jsParseInt s).map (fun n => n - 1))
      let ids := (idxs.filter (fun i => decide (0 ≤ i) && decide (i < (entries.length : Int)))).filterMap
          (fun i => (entries.get? i.toNat).map (fun e => e.id))
      (jsTrim (stripMarkers content), ids)
  | none => (jsTrim (stripMarkers content), [])

/-- Specification-side recomputation of the citation list from the
captured group: each comma-separated piece whose trimmed text parses to
an integer `i` with `1 ≤ i ≤ entries.length` contributes the id of the
`i`-th (1-based) candidate, in order; all other pieces are dropped. -/
def citesSpec (g : List Char) (entries : List PNote) : List Nat :=
  (splitOnChar ',' g).filterMap (fun s =>
    match jsParseInt (jsTrim s) with
    | some i =>
      if 1 ≤ i ∧ i ≤ (entries.length : Int) then
        (entries.get? (i - 1).toNat).map (fun e => e.id)
      else none
    | none => none)

/-! ### Vector similarity search (`Entry.findSimilar`)

Float arithmetic is modelled by exact rationals.  The similarity
`dot / (Math.sqrt qss * Math.sqrt ess)` of the source is represented
exactly as the pair `(dot, qss * ess)` with `qss * ess > 0`, denoting the
real number `dot / Real.sqrt (qss * ess)`; comparisons between such pairs
are decided by sign analysis and cross-multiplied squares.  A NaN
similarity (zero magnitude) and a thrown per-entry error (malformed
embedding blob, short vector) are both modelled as `none`, matching the
source where such entries are removed by the `> -1` filter or the
`catch` branch before ranking. -/

/-- Exact representation of the float value `num / sqrt den`, `den > 0`. -/
structure SimVal where
  num : ℚ
  den : ℚ
  den_pos : 0 < den

/-- Order on represented reals: `a.num / sqrt a.den ≤ b.num / sqrt b.den`,
decided by signs and cross-multiplied squares. -/
def SimVal.leb (a b : SimVal) : Bool :=
  if 0 ≤ a.num then
    decide (0 ≤ b.num) && decide (a.num ^ 2 * b.den ≤ b.num ^ 2 * a.den)
  else
    decide (0 ≤ b.num) || decide (b.num ^ 2 * a.den ≤ a.num ^ 2 * b.den)

/-- Propositional form of `SimVal.leb`. -/
def SimVal.le (a b : SimVal) : Prop := a.leb b = true

instance : DecidableRel SimVal.le := fun a b => by
  unfold SimVal.le; infer_instance

/-- The float literal `0.8` of the early-termination threshold. -/
def simThreshold : SimVal :=
  { num := 4 / 5, den := 1, den_pos := by norm_num }

/-- `similarity > 0.8` (false for NaN, which never reaches this test). -/
def simGt08 (s : SimVal) : Bool := !(s.leb simThreshold)

/-- Raw embedding blob of a note: either a well-formed float vector or a
blob on which the `Float32Array` view construction throws. -/
inductive Blob where
  | vec (v : List ℚ)
  | malformed
deriving DecidableEq, Repr

/-- A row of the `entries` table. -/
structure SEntry where
  id : Nat
  raw_text : String
  embedding : Option Blob
  created_at : Int
  updated_at : Int
deriving DecidableEq, Repr

/-- A result note as formatted by `findSimilar`/`getAll` (the embedding is
not part of the returned shape). -/
structure RNote where
  id : Nat
  raw_text : String
  created_at : Int
  updated_at : Int
deriving DecidableEq, Repr

/-- The result formatting applied to an entry. -/
def fmtEntry (e : SEntry) : RNote :=
  { id := e.id, raw_text := e.raw_text,
    created_at := e.created_at, updated_at := e.updated_at }

/-- `new Float32Array(buffer, ...)`: decode a blob, `none` if it throws. -/
def decodeEmbedding : Blob → Option (List ℚ)
  | Blob.vec v => some v
  | Blob.malformed => none

/-- `Σ v[i]^2` (the square of the vector magnitude before `Math.sqrt`). -/
def sumSq (v : List ℚ) : ℚ := (v.map (fun x => x * x)).sum

/-- `queryVector.reduce((sum, val, i) => sum + val * entryVector[i], 0)`
for `entryVector` at least as long as `queryVector`. -/
def dotP (q e : List ℚ) : ℚ := ((q.zip e).map (fun p => p.1 * p.2)).sum

/-- An entry together with its computed similarity. -/
structure Scored where
  entry : SEntry
  sim : SimVal

/-- Descending-similarity order used by
`sort((a, b) => b.similarity - a.similarity)`. -/
def simRel (a b : Scored) : Prop := SimVal.le b.sim a.sim

instance : DecidableRel simRel := fun a b => by
  unfold simRel; infer_instance

/-- Per-entry similarity scoring inside the batch map of `findSimilar`.

`none` models every way the source drops the entry from the ranking:
a NULL embedding (`.filter(entry.embedding)`), a blob on which the
`Float32Array` construction throws (`catch` sets `similarity = -1`, then
the `> -1` filter drops it), an entry vector shorter than the query
(an out-of-bounds read makes the dot product NaN, and `NaN > -1` is
false), or a zero magnitude (`0/0 = NaN`, same filter). -/
def scoreEntry (qv : List ℚ) (e : SEntry) : Option Scored :=
  match e.embedding with
  | none => none
  | some Blob.malformed => none
  | some (Blob.vec ev) =>
    if ev.length < qv.length then none
    else
      if h : sumSq qv * sumSq ev = 0 then none
      else
        some { entry := e,
               sim := { num := dotP qv ev, den := sumSq qv * sumSq ev,
                        den_pos := by
                          have hq : 0 ≤ sumSq qv := by
                            unfold sumSq
                            refine List.sum_nonneg ?_
                            intro x hx
                            obtain ⟨y, _, rfl⟩ := List.mem_map.mp hx
                            exact mul_self_nonneg y
                          have he2 : 0 ≤ sumSq ev := by
                            unfold sumSq
                            refine List.sum_nonneg ?_
                            intro x hx
                            obtain ⟨y, _, rfl⟩ := List.mem_map.mp hx
                            exact mul_self_nonneg y
                          exact lt_of_le_of_ne (mul_nonneg hq he2) (Ne.symm h) } }

/-- Scoring of one batch: map entries to scores and drop the failures
(the `filter`/`map`/`filter` chain of the source). -/
def batchScores (qv : List ℚ) (batch : List SEntry) : List Scored :=
  batch.filterMap (scoreEntry qv)

/-- Merge step after each batch: concatenate, re-sort by descending
similarity, truncate to the top `limit`. -/
def mergeTop (limit : Nat) (tm scored : List Scored) : List Scored :=
  (List.insertionSort simRel (tm ++ scored)).take limit

/-- The early-termination test
`topMatches.length === limit && topMatches[limit - 1].similarity > 0.8`.
For `limit = 0` the source would throw on the `[-1]` access (the theorems
below therefore assume `0 < limit`); the model returns `false` there. -/
def stopCond (limit : Nat) (tm : List Scored) : Bool :=
  decide (tm.length = limit) &&
    (match tm.getLast? with
     | some w => simGt08 w.sim
     | none => false)

/-- The batched scan loop of `findSimilar`.  `dbF` is the result of
`SELECT ... WHERE embedding IS NOT NULL ORDER BY id`; a batch is
`LIMIT 25 OFFSET offset`.  Returns the final top list, the number of
batches fetched and the number of notes scanned.  The loop stops on an
empty batch, on the early-termination test, or when the next offset
reaches `BATCH_SIZE * 10 = 250`.

Because each iteration advances `offset` by 25 and the `250 ≤ offset + 25`
check stops the loop before the offset passes 250, the source loop runs at
most `10 - offset / 25` iterations; `fuel` carries exactly that iteration
budget (10 at the initial offset 0), so the fuel-zero branch is
unreachable from the initial call — `simLoop_fuel_congr` below proves the
result does not depend on the fuel as long as it covers the budget. -/
def simLoop (dbF : List SEntry) (qv : List ℚ) (limit : Nat) :
    Nat → Nat → List Scored → List Scored × Nat × Nat
  | 0, _offset, tm => (tm, 0, 0)
  | fuel + 1, offset, tm =>
    let batch := (dbF.drop offset).take 25
    if batch.isEmpty then (tm, 0, 0)
    else
      let tm1 := mergeTop limit tm (batchScores qv batch)
      if stopCond limit tm1 then (tm1, 1, batch.length)
      else if 250 ≤ offset + 25 then (tm1, 1, batch.length)
      else
        let r := simLoop dbF qv limit fuel (offset + 25) tm1
        (r.1, r.2.1 + 1, r.2.2 + batch.length)

/-- `ORDER BY id` ascending for the batched scan. -/
def idRel (a b : SEntry) : Prop := a.id ≤ b.id

instance : DecidableRel idRel := fun a b => by
  unfold idRel; infer_instance

/-- The rows visited by the scan: entries with an embedding, in id order. -/
def simCandidates (db : List SEntry) : List SEntry :=
  List.insertionSort idRel (db.filter (fun e => e.embedding.isSome))

/-- The top-match list computed by the similarity path of `findSimilar`
(initial offset 0, iteration budget 10). -/
def topMatchesOf (db : List SEntry) (qv : List ℚ) (limit : Nat) : List Scored :=
  (simLoop (simCandidates db) qv limit 10 0 []).1

/-- Recency order of `ORDER BY created_at DESC`. -/
def recRel (a b : SEntry) : Prop := b.created_at ≤ a.created_at

instance : DecidableRel recRel := fun a b => by
  unfold recRel; infer_instance

/-- `Entry.getAll(limit)`: all entries by descending creation time,
truncated to `limit`. -/
def getAll (db : List SEntry) (limit : Nat) : List SEntry :=
  (List.insertionSort recRel db).take limit

/-- Cache fingerprint: `queryVector.slice(0, 10).join("|") + "|" + limit`
(rationals never contain the separator, so the pair is an exact model). -/
def fingerprint (qv : List ℚ) (limit : Nat) : List ℚ × Nat := (qv.take 10, limit)

/-- The similarity cache: a JS `Map` in insertion order. -/
abbrev CacheT : Type := List ((List ℚ × Nat) × List RNote)

/-- `similarityCache.get(queryHash)`. -/
def cacheGet (c : CacheT) (k : List ℚ × Nat) : Option (List RNote) :=
  (c.find? (fun p => decide (p.1 = k))).map (fun p => p.2)

/-- `Map.prototype.set`: update in place (keeping insertion position) if
the key is present, otherwise append. -/
def mapSet (c : CacheT) (k : List ℚ × Nat) (v : List RNote) : CacheT :=
  if c.any (fun p => decide (p.1 = k)) then
    c.map (fun p => if p.1 = k then (k, v) else p)
  else c ++ [(k, v)]

/-- `similarityCache.set`: when the map holds `maxEntries = 20` keys,
delete the first-inserted key (`keys().next().value`), then `Map.set`. -/
def cacheSet (c : CacheT) (k : List ℚ × Nat) (v : List RNote) : CacheT :=
  if 20 ≤ c.length then mapSet (c.tail) k v else mapSet c k v

/-- Shallow embedding of `Entry.findSimilar(queryEmbedding, limit)` over a
database `db` and the current cache.  Returns the result list and the
cache after the call.  A missing query vector degrades immediately to
`getAll`; a cache hit returns the cached list verbatim; otherwise the
batched scan runs, a non-empty result is formatted and cached, and an
empty result degrades to `getAll`. -/
def findSimilar (db : List SEntry) (cache : CacheT)
    (q : Option (List ℚ)) (limit : Nat) : List RNote × CacheT :=
  match q with
  | none => ((getAll db limit).map fmtEntry, cache)
  | some qv =>
    let fp := fingerprint qv limit
    match cacheGet cache fp with
    | some res => (res, cache)
    | none =>
      let top := topMatchesOf db qv limit
      if top.isEmpty then ((getAll db limit).map fmtEntry, cache)
      else
        let res := top.map (fun s => fmtEntry s.entry)
        (res, cacheSet cache fp res)

/-- Shallow embedding of `Entry.updateEmbedding(id, embedding)`: a missing
embedding returns `false` and changes nothing; otherwise the row is
updated and the whole similarity cache is cleared.  Returns the success
flag, the new database and the new cache. -/
def updateEmbedding (db : List SEntry) (cache : CacheT) (id : Nat)
    (emb : Option (List ℚ)) : Bool × List SEntry × CacheT :=
  match emb with
  | none => (false, db, cache)
  | some v =>
    (true,
     db.map (fun e => if e.id = id then { e with embedding := some (Blob.vec v) } else e),
     [])

/-- Operations that touch the similarity cache during the system's life:
a `set` performed by `findSimilar` on a miss, and the wholesale clear
performed by `updateEmbedding`. -/
inductive CacheOp where
  | setOp (k : List ℚ × Nat) (v : List RNote)
  | clearOp

/-- Apply one cache operation. -/
def applyOp (c : CacheT) : CacheOp → CacheT
  | CacheOp.setOp k v => cacheSet c k v
  | CacheOp.clearOp => []

/-- Run a chronological list of cache operations from the empty cache. -/
def runOps (ops : List CacheOp) : CacheT := ops.foldl applyOp []

/-! ## Supporting lemmas -/

/-- If the first filtered element is `e`, the list splits as
`pre ++ e :: post` with every element of `pre` failing the filter. -/
theorem filter_head_decomp {α : Type} {p : α → Bool} :
    ∀ {rows : List α} {e : α}, (rows.filter p).head? = some e →
      ∃ pre post, rows = pre ++ e :: post ∧ (∀ r ∈ pre, p r = false) ∧ p e = true := by
  intro rows
  induction rows with
  | nil => intro e h; simp at h
  | cons r rest ih =>
    intro e h
    by_cases hp : p r = true
    · rw [List.filter_cons, if_pos hp] at h
      simp only [List.head?] at h
      cases h
      exact ⟨[], rest, rfl, by intro x hx; simp at hx, hp⟩
    · rw [List.filter_cons, if_neg hp] at h
      obtain ⟨pre, post, hr, hpre, hpe⟩ := ih h
      refine ⟨r :: pre, post, by rw [hr]; rfl, ?_, hpe⟩
      intro x hx
      rcases List.mem_cons.mp hx with rfl | hx2
      · exact Bool.eq_false_iff.mpr hp
      · exact hpre x hx2

/-- `find?` skips a run of elements on which the predicate fails. -/
theorem find?_skip {α : Type} {p : α → Bool} :
    ∀ {l₁ : List α} (l₂ : List α), (∀ a ∈ l₁, p a = false) →
      List.find? p (l₁ ++ l₂) = List.find? p l₂ := by
  intro l₁
  induction l₁ with
  | nil => intro l₂ _; rfl
  | cons a l ih =>
    intro l₂ hall
    have ha : p a = false := hall a (List.mem_cons_self a l)
    rw [List.cons_append, List.find?_cons, ha]
    exact ih l₂ (fun x hx => hall x (List.mem_cons_of_mem a hx))

/-- A map that fixes every element of a list is the identity on it. -/
theorem map_eq_self_of {α : Type} {f : α → α} :
    ∀ {l : List α}, (∀ x ∈ l, f x = x) → l.map f = l := by
  intro l
  induction l with
  | nil => intro _; rfl
  | cons a rest ih =>
    intro hall
    rw [List.map_cons, hall a (List.mem_cons_self a rest),
      ih (fun x hx => hall x (List.mem_cons_of_mem a hx))]

/-- On property names that do not collide with `Object.prototype`
members, the source's priority comparison is the numeric rank order. -/
theorem jsLeq_of_ranks {t1 t2 : String} (h1 : t1 ∉ protoKeys) (h2 : t2 ∉ protoKeys) :
    jsLeq (typePriority t1) (typePriority t2) = decide (typeRank t1 ≤ typeRank t2) := by
  unfold typePriority
  rw [if_neg h1, if_neg h2]
  rfl

/-- When either property name hits an inherited `Object.prototype`
member, the priority comparison is false (a NaN comparison in JS). -/
theorem jsLeq_proto_false {t1 t2 : String} (h : t1 ∈ protoKeys ∨ t2 ∈ protoKeys) :
    jsLeq (typePriority t1) (typePriority t2) = false := by
  unfold typePriority
  rcases h with h | h
  · rw [if_pos h]
    rfl
  · rw [if_pos h]
    by_cases h1 : t1 ∈ protoKeys
    · rw [if_pos h1]
      rfl
    · rw [if_neg h1]
      rfl

/-- The no-overwrite branch of `createOrGet`: no exact pair, the first
same-key row is `e`, and the priority comparison holds — the existing
tag is returned and the store is untouched. -/
theorem createOrGet_keep_eq (s : TagStore) (name ty key : String)
    (hex : s.rows.find? (fun r => r.normalized_name == key && r.type == ty) = none)
    (e : TagRow)
    (he : (s.rows.filter (fun r => r.normalized_name == key)).head? = some e)
    (hcond : jsLeq (typePriority ty) (typePriority e.type) = true) :
    createOrGet s name ty key = (some e, s) := by
  obtain ⟨pre, post, hr, hpre, hKe⟩ := filter_head_decomp he
  have hfilter : s.rows.filter (fun r => r.normalized_name == key) =
      e :: post.filter (fun r => r.normalized_name == key) := by
    rw [hr, List.filter_append, List.filter_cons, if_pos hKe]
    have : pre.filter (fun r => r.normalized_name == key) = [] :=
      List.filter_eq_nil_iff.mpr (fun a ha => by simp [hpre a ha])
    rw [this]; rfl
  simp only [createOrGet, hex, hfilter, if_pos hcond]

/-- The overwrite branch of `createOrGet`: no exact pair, the first
same-key row is `e`, and the priority comparison fails — `e`'s type is
overwritten in place (same id, all other rows untouched). -/
theorem createOrGet_upgrade_eq (s : TagStore) (hwf : IdsNodup s)
    (name ty key : String)
    (hex : s.rows.find? (fun r => r.normalized_name == key && r.type == ty) = none)
    (e : TagRow)
    (he : (s.rows.filter (fun r => r.normalized_name == key)).head? = some e)
    (hcond : jsLeq (typePriority ty) (typePriority e.type) = false) :
    createOrGet s name ty key =
      (some { e with type := ty },
       { s with rows := s.rows.map (fun r => if r.id == e.id then { r with type := ty } else r) }) := by
  obtain ⟨pre, post, hr, hpre, hKe⟩ := filter_head_decomp he
  have hfilter : s.rows.filter (fun r => r.normalized_name == key) =
      e :: post.filter (fun r => r.normalized_name == key) := by
    rw [hr, List.filter_append, List.filter_cons, if_pos hKe]
    have : pre.filter (fun r => r.normalized_name == key) = [] :=
      List.filter_eq_nil_iff.mpr (fun a ha => by simp [hpre a ha])
    rw [this]; rfl
  have hnle : ¬ jsLeq (typePriority ty) (typePriority e.type) = true := by
    simp [hcond]
  -- ids of `pre` differ from `e.id` by the primary-key invariant
  have hwf2 : ((pre.map (fun r => r.id)) ++ e.id :: (post.map (fun r => r.id))).Nodup := by
    have := hwf
    unfold IdsNodup at this
    rw [hr] at this
    simpa using this
  have hnotmem : e.id ∉ pre.map (fun r => r.id) := by
    rcases List.nodup_cons.mp (List.nodup_middle.mp hwf2) with ⟨hnot, _⟩
    intro hmem
    exact hnot (List.mem_append_left _ hmem)
  have hpreid : ∀ r ∈ pre, (r.id == e.id) = false := by
    intro r hrm
    have : r.id ≠ e.id := by
      intro heq
      exact hnotmem (List.mem_map.mpr ⟨r, hrm, heq⟩)
    simpa using this
  -- the updated row list
  have hmap : s.rows.map (fun r => if r.id == e.id then { r with type := ty } else r) =
      pre ++ { e with type := ty } ::
        post.map (fun r => if r.id == e.id then { r with type := ty } else r) := by
    rw [hr, List.map_append, List.map_cons]
    congr 1
    · exact map_eq_self_of (fun r hrm => by rw [hpreid r hrm]; rfl)
    · congr 1
      simp
  have hfindid :
      (s.rows.map (fun r => if r.id == e.id then { r with type := ty } else r)).find?
          (fun r => r.id == e.id) = some { e with type := ty } := by
    rw [hmap, find?_skip _ hpreid, List.find?_cons]
    simp
  simp only [createOrGet, hex, hfilter, if_neg hnle, hfindid]

/-! ## C1: type-priority merge in `Tag.createOrGet` -/

/-- Claim C1: when no tag with the exact `(normalizedKey, proposedType)`
pair exists but some tag with the same `normalizedKey` does (the first
such row being `e`), `createOrGet` returns `e` unchanged whenever the
proposed type's rank is not strictly higher than `e`'s (no downgrade),
and otherwise overwrites `e`'s type in place — same id, all other rows
untouched, so existing note associations (keyed by tag id) stay valid.

The two `∉ protoKeys` hypotheses confine the statement to types whose
`typeHierarchy` lookup is numeric — every enumerated type and every
ordinary string.  This is the domain on which "specificity rank" is
defined; property names inherited from `Object.prototype` make the
source's comparison NaN-false instead (the C10 counterexample). -/
theorem tag_resolution_type_priority (s : TagStore) (hwf : IdsNodup s)
    (name ty key : String) (hpt : ty ∉ protoKeys)
    (hex : s.rows.find? (fun r => r.normalized_name == key && r.type == ty) = none)
    (e : TagRow) (hpe : e.type ∉ protoKeys)
    (he : (s.rows.filter (fun r => r.normalized_name == key)).head? = some e) :
    (typeRank ty ≤ typeRank e.type → createOrGet s name ty key = (some e, s)) ∧
    (typeRank e.type < typeRank ty →
      createOrGet s name ty key =
        (some { e with type := ty },
         { s with rows := s.rows.map (fun r => if r.id == e.id then { r with type := ty } else r) })) := by
  constructor
  · intro hle
    refine createOrGet_keep_eq s name ty key hex e he ?_
    rw [jsLeq_of_ranks hpt hpe]
    simpa using hle
  · intro hlt
    refine createOrGet_upgrade_eq s hwf name ty key hex e he ?_
    rw [jsLeq_of_ranks hpt hpe]
    simp
    omega

/-- Witness for C1: the Park example.  Resolving
`("Park", "place", "park")` against a store holding
`("Park", "entity", "park")` upgrades the tag's type to `place` in place
(same id 1), and resolving `("Park", "entity", "park")` against the
upgraded store returns the `place` tag unchanged (no downgrade). -/
theorem tag_resolution_type_priority_witness :
    createOrGet ⟨[⟨1, "Park", "entity", "park"⟩], 2⟩ ("Park") ("place") ("park") =
      (some ⟨1, "Park", "place", "park"⟩, ⟨[⟨1, "Park", "place", "park"⟩], 2⟩) ∧
    createOrGet ⟨[⟨1, "Park", "place", "park"⟩], 2⟩ ("Park") ("entity") ("park") =
      (some ⟨1, "Park", "place", "park"⟩, ⟨[⟨1, "Park", "place", "park"⟩], 2⟩) := by
  constructor
  · have h := (tag_resolution_type_priority ⟨[⟨1, "Park", "entity", "park"⟩], 2⟩
      (by decide) ("Park") ("place") ("park") (by decide) (by decide)
      ⟨1, "Park", "entity", "park"⟩ (by decide) (by decide)).2 (by decide)
    exact h.trans (by decide)
  · have h := (tag_resolution_type_priority ⟨[⟨1, "Park", "place", "park"⟩], 2⟩
      (by decide) ("Park") ("entity") ("park") (by decide) (by decide)
      ⟨1, "Park", "place", "park"⟩ (by decide) (by decide)).1 (by decide)
    exact h.trans (by decide)

/-! ## C10: behaviour of `createOrGet` on proposed types outside the
enumeration -/

/-- Claim C2: tag resolution is idempotent.  On a store with distinct row
ids, calling `createOrGet (name, type, normalizedKey)` twice in
succession returns the same tag both times and the second call leaves the
tag table (and the id counter) unchanged — in particular it returns the
same tag id and creates no new row. -/
theorem tag_resolution_idempotent (s : TagStore) (hwf : IdsNodup s)
    (name ty key : String) :
    createOrGet (createOrGet s name ty key).2 name ty key = createOrGet s name ty key := by
  cases hfind : s.rows.find? (fun r => r.normalized_name == key && r.type == ty) with
  | some t =>
    have h1 : createOrGet s name ty key = (some t, s) := by
      simp only [createOrGet, hfind]
    rw [h1]
    exact h1
  | none =>
    cases hfK : s.rows.filter (fun r => r.normalized_name == key) with
    | nil =>
      -- fresh key: the first call inserts a new row, the second finds it
      have h1 : createOrGet s name ty key =
          (some ⟨s.nextId, name, ty, key⟩,
           ⟨s.rows ++ [⟨s.nextId, name, ty, key⟩], s.nextId + 1⟩) := by
        simp only [createOrGet, hfind, hfK]
      rw [h1]
      have hrows : ∀ r ∈ s.rows,
          ((fun r => r.normalized_name == key && r.type == ty) r) = false := by
        intro r hr
        have hK : (r.normalized_name == key) = false := by
          rw [Bool.eq_false_iff]
          intro hkk
          have : r ∈ s.rows.filter (fun r => r.normalized_name == key) :=
            List.mem_filter.mpr ⟨hr, hkk⟩
          rw [hfK] at this
          simp at this
        simp [hK]
      have h2 : (s.rows ++ [(⟨s.nextId, name, ty, key⟩ : TagRow)]).find?
          (fun r => r.normalized_name == key && r.type == ty) =
            some ⟨s.nextId, name, ty, key⟩ := by
        rw [find?_skip _ hrows]
        simp [List.find?]
      show createOrGet ⟨s.rows ++ [⟨s.nextId, name, ty, key⟩], s.nextId + 1⟩ name ty key = _
      simp only [createOrGet, h2]
    | cons e tl =>
      by_cases hle : jsLeq (typePriority ty) (typePriority e.type) = true
      · -- no-downgrade branch: store unchanged
        have h1 : createOrGet s name ty key = (some e, s) := by
          simp only [createOrGet, hfind, hfK, if_pos hle]
        rw [h1]
        exact h1
      · -- upgrade branch: the second call finds the exact pair
        have hnle : ¬ jsLeq (typePriority ty) (typePriority e.type) = true := hle
        have hhead : (s.rows.filter (fun r => r.normalized_name == key)).head? = some e := by
          rw [hfK]; rfl
        obtain ⟨pre, post, hr, hpre, hKe⟩ := filter_head_decomp hhead
        have hwf2 : ((pre.map (fun r => r.id)) ++ e.id :: (post.map (fun r => r.id))).Nodup := by
          have := hwf
          unfold IdsNodup at this
          rw [hr] at this
          simpa using this
        have hnotmem : e.id ∉ pre.map (fun r => r.id) := by
          rcases List.nodup_cons.mp (List.nodup_middle.mp hwf2) with ⟨hnot, _⟩
          intro hmem
          exact hnot (List.mem_append_left _ hmem)
        have hpreid : ∀ r ∈ pre, (r.id == e.id) = false := by
          intro r hrm
          have : r.id ≠ e.id := by
            intro heq
            exact hnotmem (List.mem_map.mpr ⟨r, hrm, heq⟩)
          simpa using this
        have hmap : s.rows.map (fun r => if r.id == e.id then { r with type := ty } else r) =
            pre ++ { e with type := ty } ::
              post.map (fun r => if r.id == e.id then { r with type := ty } else r) := by
          rw [hr, List.map_append, List.map_cons]
          congr 1
          · exact map_eq_self_of (fun r hrm => by rw [hpreid r hrm]; rfl)
          · congr 1
            simp
        have hfindid :
            (s.rows.map (fun r => if r.id == e.id then { r with type := ty } else r)).find?
                (fun r => r.id == e.id) = some { e with type := ty } := by
          rw [hmap, find?_skip _ hpreid, List.find?_cons]
          simp
        have h1 : createOrGet s name ty key =
            (some { e with type := ty },
             { s with rows := s.rows.map (fun r => if r.id == e.id then { r with type := ty } else r) }) := by
          simp only [createOrGet, hfind, hfK, if_neg hnle, hfindid]
        rw [h1]
        -- the second call: every row of `pre` still fails the key match,
        -- and the updated row now matches the exact (key, type) pair
        have hpreP : ∀ r ∈ pre,
            ((fun r => r.normalized_name == key && r.type == ty) r) = false := by
          intro r hrm
          have hKr := hpre r hrm
          simp [hKr]
        have hfind2 :
            (s.rows.map (fun r => if r.id == e.id then { r with type := ty } else r)).find?
                (fun r => r.normalized_name == key && r.type == ty) =
              some { e with type := ty } := by
          rw [hmap, find?_skip _ hpreP, List.find?_cons]
          have : (({ e with type := ty } : TagRow).normalized_name == key &&
              ({ e with type := ty } : TagRow).type == ty) = true := by
            simp only [Bool.and_eq_true]
            exact ⟨hKe, by simp⟩
          rw [this]
        show createOrGet
            { s with rows := s.rows.map (fun r => if r.id == e.id then { r with type := ty } else r) }
            name ty key = _
        simp only [createOrGet, hfind2]

/-- Witness for C2: resolving `("Park", "place", "park")` twice against a
store holding `("Park", "entity", "park")` gives the same tag and store. -/
theorem tag_resolution_idempotent_witness :
    createOrGet (createOrGet ⟨[⟨1, "Park", "entity", "park"⟩], 2⟩ ("Park") ("place") ("park")).2
        ("Park") ("place") ("park") =
      createOrGet ⟨[⟨1, "Park", "entity", "park"⟩], 2⟩ ("Park") ("place") ("park") :=
  tag_resolution_idempotent ⟨[⟨1, "Park", "entity", "park"⟩], 2⟩ (by decide)
    ("Park") ("place") ("park")

/-! ## C6: best-tag selection of the name-based lookup route -/

/-- The head of the stable descending-rank sort is the earliest element
of maximal rank. -/
theorem head_insertionSort_rank :
    ∀ l : List TagRow, (List.insertionSort rankRel l).head? = firstMaxRank l := by
  intro l
  induction l with
  | nil => rfl
  | cons x xs ih =>
    show (List.orderedInsert rankRel x (List.insertionSort rankRel xs)).head? =
      firstMaxRank (x :: xs)
    cases h : List.insertionSort rankRel xs with
    | nil =>
      have hxs : xs = [] := by
        have hlen := List.length_insertionSort rankRel xs
        rw [h] at hlen
        exact List.eq_nil_of_length_eq_zero hlen.symm
      subst hxs
      rfl
    | cons y ys =>
      have hy : firstMaxRank xs = some y := by
        rw [← ih, h]
        rfl
      show (List.orderedInsert rankRel x (y :: ys)).head? = firstMaxRank (x :: xs)
      simp only [firstMaxRank, hy, List.orderedInsert]
      by_cases hxy : rankRel x y
      · have hnlt : ¬ typeRank x.type < typeRank y.type := not_lt.mpr hxy
        rw [if_pos hxy, if_neg hnlt]
        rfl
      · have hlt : typeRank x.type < typeRank y.type := by
          have := hxy
          unfold rankRel at this
          exact not_le.mp this
        rw [if_neg hxy, if_pos hlt]
        rfl

/-- Semantics of `firstMaxRank`: it returns the earliest element of
maximal type rank. -/
theorem firstMaxRank_spec :
    ∀ {l : List TagRow} {t : TagRow}, firstMaxRank l = some t →
      ∃ pre post, l = pre ++ t :: post ∧
        (∀ u ∈ pre, typeRank u.type < typeRank t.type) ∧
        (∀ u ∈ l, typeRank u.type ≤ typeRank t.type) := by
  intro l
  induction l with
  | nil => intro t h; simp [firstMaxRank] at h
  | cons x xs ih =>
    intro t h
    cases hxs : firstMaxRank xs with
    | none =>
      have hnil : xs = [] := by
        cases xs with
        | nil => rfl
        | cons y ys =>
          exfalso
          simp only [firstMaxRank] at hxs
          cases h2 : firstMaxRank ys with
          | none => rw [h2] at hxs; exact Option.noConfusion hxs
          | some u =>
            rw [h2] at hxs
            have hxs2 : (if typeRank y.type < typeRank u.type then some u else some y) =
                (none : Option TagRow) := hxs
            by_cases hc : typeRank y.type < typeRank u.type
            · rw [if_pos hc] at hxs2; exact Option.noConfusion hxs2
            · rw [if_neg hc] at hxs2; exact Option.noConfusion hxs2
      subst hnil
      simp only [firstMaxRank] at h
      cases h
      exact ⟨[], [], rfl, by intro u hu; simp at hu,
        by intro u hu; simp at hu; subst hu; exact le_refl _⟩
    | some u =>
      simp only [firstMaxRank, hxs] at h
      by_cases hcmp : typeRank x.type < typeRank u.type
      · rw [if_pos hcmp] at h
        cases h
        obtain ⟨pre, post, hl, hpre, hall⟩ := ih hxs
        refine ⟨x :: pre, post, by rw [hl]; rfl, ?_, ?_⟩
        · intro v hv
          rcases List.mem_cons.mp hv with rfl | hv2
          · exact hcmp
          · exact hpre v hv2
        · intro v hv
          rcases List.mem_cons.mp hv with rfl | hv2
          · exact le_of_lt hcmp
          · exact hall v hv2
      · rw [if_neg hcmp] at h
        cases h
        obtain ⟨pre, post, hl, hpre, hall⟩ := ih hxs
        refine ⟨[], xs, rfl, by intro u hu; simp at hu, ?_⟩
        intro v hv
        rcases List.mem_cons.mp hv with rfl | hv2
        · exact le_refl _
        · exact le_trans (hall v hv2) (not_lt.mp hcmp)

/-- `parseInt` of the empty string is `NaN`. -/
theorem jsParseInt_nil : jsParseInt [] = none := rfl

/-- When no marker matches, the global replace leaves the text alone. -/
theorem stripMarkers_of_none {l : List Char} (h : findMarker l = none) :
    stripMarkers l = l := by
  unfold stripMarkers stripMarkersF
  rw [h]

/-- The citation pipeline of `processLlmResponse` (trim, drop empties,
`parseInt`, shift to 0-based, range-filter, index) computes `citesSpec`. -/
theorem citesPipe_eq (entries : List PNote) :
    ∀ pieces : List (List Char),
      ((((pieces.map jsTrim).filter (fun s => !s.isEmpty)).filterMap
          (fun s => (jsParseInt s).map (fun n => n - 1))).filter
          (fun i => decide (0 ≤ i) && decide (i < (entries.length : Int)))).filterMap
          (fun i => (entries.get? i.toNat).map (fun e => e.id)) =
      pieces.filterMap (fun s =>
        match jsParseInt (jsTrim s) with
        | some i =>
          if 1 ≤ i ∧ i ≤ (entries.length : Int) then
            (entries.get? (i - 1).toNat).map (fun e => e.id)
          else none
        | none => none) := by
  intro pieces
  induction pieces with
  | nil => rfl
  | cons s rest ih =>
    cases hp : jsParseInt (jsTrim s) with
    | none =>
      by_cases he : (jsTrim s).isEmpty = true
      · simp [List.filter_cons, he, hp]
        simpa using ih
      · simp [List.filter_cons, he, hp]
        simpa using ih
    | some n =>
      have hne : (jsTrim s).isEmpty = false := by
        cases htr : jsTrim s with
        | nil => rw [htr, jsParseInt_nil] at hp; exact Option.noConfusion hp
        | cons c cs => rfl
      by_cases hb : 0 ≤ n - 1 ∧ n - 1 < (entries.length : Int)
      · have hb2 : 1 ≤ n ∧ n ≤ (entries.length : Int) := ⟨by omega, by omega⟩
        simp only [List.map_cons, List.filter_cons, hne, Bool.not_false, if_true,
          List.filterMap_cons, hp, Option.map_some',
          hb.1, hb.2, decide_True, Bool.and_self, if_pos hb2]
        rw [ih]
      · have hb2 : ¬ (1 ≤ n ∧ n ≤ (entries.length : Int)) := by omega
        rcases not_and_or.mp hb with hb1 | hb1
        · simp [List.filter_cons, hne, hp, hb1, hb2]
          simpa using ih
        · simp [List.filter_cons, hne, hp, hb1, hb2]
          simpa using ih

/-- Counterexample to claim C3 at the response
`"  a RELEVANT_ENTRIES:[2a] b RELEVANT_ENTRIES:[1]  "` over candidates
with ids `[10, 20]`.  The claim predicts that the non-numeric entry
`"2a"` is discarded (citations `[]`) and that only the matched marker
text is stripped (answer `"  a  b RELEVANT_ENTRIES:[1]  "`).  The code
instead cites `[20]` (because `parseInt("2a") = 2`) and returns the
answer `"a  b"`: every marker occurrence is removed and the result is
whitespace-trimmed. -/
theorem llm_parse_claim_counterexample :
    processLlmResponse (("  a RELEVANT_ENTRIES:[2a] b RELEVANT_ENTRIES:[1]  ").toList)
        [⟨10, "x"⟩, ⟨20, "y"⟩] = (("a  b").toList, [20]) ∧
    (("a  b").toList ≠ (("  a  b RELEVANT_ENTRIES:[1]  ").toList)) ∧
    ([20] ≠ ([] : List Nat)) := by decide

/-- Claim C3 as amended: the parser never fails; when no marker matches,
the answer is the **whitespace-trimmed** response with no citations; when
a marker matches, the bracket contents are split on commas, each piece is
parsed with JavaScript `parseInt` semantics (so a piece with a leading
integer such as `"2a"` counts as that integer, and only pieces with no
leading integer are discarded), 1-based in-range indices are converted to
candidate ids, and **all** marker occurrences (not only the matched one)
are stripped from the response, which is then whitespace-trimmed. -/
theorem llm_marker_parse_amended (content : List Char) (entries : List PNote) :
    (findMarker content = none →
      processLlmResponse content entries = (jsTrim content, [])) ∧
    (∀ pre g post, findMarker content = some (pre, g, post) →
      processLlmResponse content entries =
        (jsTrim (stripMarkers content), citesSpec g entries)) := by
  constructor
  · intro h
    unfold processLlmResponse
    rw [h, stripMarkers_of_none h]
  · intro pre g post h
    by_cases hg : g.isEmpty = true
    · have hgnil : g = [] := by
        cases g with
        | nil => rfl
        | cons c cs => simp at hg
      subst hgnil
      simp only [processLlmResponse, h, List.isEmpty_nil, if_true]
      rfl
    · simp only [processLlmResponse, h]
      rw [if_neg hg]
      have hpipe := citesPipe_eq entries (splitOnChar ',' g)
      unfold citesSpec
      rw [← hpipe]
  -- (in the `g = []` branch `citesSpec [] entries` is definitionally `[]`)

/-- Witness for the amended C3: the claim's own example.  The response
`"... text ... RELEVANT_ENTRIES:[1,3]"` over three candidates with ids
`[10, 20, 30]` parses to the answer `"... text ..."` with citations
`[10, 30]`. -/
theorem llm_marker_parse_amended_witness :
    processLlmResponse (("... text ... RELEVANT_ENTRIES:[1,3]").toList)
        [⟨10, "a"⟩, ⟨20, "b"⟩, ⟨30, "c"⟩] = (("... text ...").toList, [10, 30]) := by
  have h := (llm_marker_parse_amended (("... text ... RELEVANT_ENTRIES:[1,3]").toList)
      [⟨10, "a"⟩, ⟨20, "b"⟩, ⟨30, "c"⟩]).2
    (("... text ... ").toList) (("1,3").toList) [] (by decide)
  exact h.trans (by decide)

/-! ## The exact similarity order -/

/-- `SimVal.leb` is total. -/
theorem simle_total (a b : SimVal) : a.leb b = true ∨ b.leb a = true := by
  unfold SimVal.leb
  by_cases ha : 0 ≤ a.num <;> by_cases hb : 0 ≤ b.num
  · rcases le_total (a.num ^ 2 * b.den) (b.num ^ 2 * a.den) with h | h
    · left; simp [ha, hb, h]
    · right; simp [ha, hb, h]
  · right; simp [ha, hb]
  · left; simp [ha, hb]
  · rcases le_total (b.num ^ 2 * a.den) (a.num ^ 2 * b.den) with h | h
    · left; simp [ha, hb, h]
    · right; simp [ha, hb, h]

/-- `SimVal.leb` is transitive. -/
theorem simle_trans (a b c : SimVal)
    (hab : a.leb b = true) (hbc : b.leb c = true) : a.leb c = true := by
  have hda := a.den_pos
  have hdb := b.den_pos
  have hdc := c.den_pos
  unfold SimVal.leb at hab hbc ⊢
  by_cases ha : 0 ≤ a.num
  · rw [if_pos ha] at hab ⊢
    simp only [Bool.and_eq_true, decide_eq_true_eq] at hab
    obtain ⟨hb, h1⟩ := hab
    rw [if_pos hb] at hbc
    simp only [Bool.and_eq_true, decide_eq_true_eq] at hbc
    obtain ⟨hc, h2⟩ := hbc
    simp only [Bool.and_eq_true, decide_eq_true_eq]
    refine ⟨hc, ?_⟩
    nlinarith [mul_le_mul_of_nonneg_right h1 (le_of_lt hdc),
      mul_le_mul_of_nonneg_right h2 (le_of_lt hda), mul_pos hdb hdc]
  · rw [if_neg ha] at hab ⊢
    simp only [Bool.or_eq_true, decide_eq_true_eq] at hab ⊢
    rcases hab with hb | h1
    · rw [if_pos hb] at hbc
      simp only [Bool.and_eq_true, decide_eq_true_eq] at hbc
      exact Or.inl hbc.1
    · by_cases hb : 0 ≤ b.num
      · rw [if_pos hb] at hbc
        simp only [Bool.and_eq_true, decide_eq_true_eq] at hbc
        exact Or.inl hbc.1
      · rw [if_neg hb] at hbc
        simp only [Bool.or_eq_true, decide_eq_true_eq] at hbc
        rcases hbc with hc | h2
        · exact Or.inl hc
        · refine Or.inr ?_
          nlinarith [mul_le_mul_of_nonneg_right h1 (le_of_lt hdc),
            mul_le_mul_of_nonneg_right h2 (le_of_lt hda), mul_pos hdb hdc]

/-- `SimVal.leb` decides the order of the represented real values
`num / sqrt den`; this soundness direction is what the sortedness
theorem needs. -/
theorem simle_sound {a b : SimVal} (h : a.leb b = true) :
    (a.num : ℝ) / Real.sqrt (a.den : ℝ) ≤ (b.num : ℝ) / Real.sqrt (b.den : ℝ) := by
  have hda : (0 : ℝ) < (a.den : ℝ) := by exact_mod_cast a.den_pos
  have hdb : (0 : ℝ) < (b.den : ℝ) := by exact_mod_cast b.den_pos
  have hsa : (0 : ℝ) < Real.sqrt (a.den : ℝ) := Real.sqrt_pos.mpr hda
  have hsb : (0 : ℝ) < Real.sqrt (b.den : ℝ) := Real.sqrt_pos.mpr hdb
  unfold SimVal.leb at h
  by_cases ha : 0 ≤ a.num
  · rw [if_pos ha] at h
    simp only [Bool.and_eq_true, decide_eq_true_eq] at h
    obtain ⟨hb, hcross⟩ := h
    have haR : (0 : ℝ) ≤ (a.num : ℝ) := by exact_mod_cast ha
    have hbR : (0 : ℝ) ≤ (b.num : ℝ) := by exact_mod_cast hb
    have hxa : (0 : ℝ) ≤ (a.num : ℝ) / Real.sqrt (a.den : ℝ) := div_nonneg haR hsa.le
    have hxb : (0 : ℝ) ≤ (b.num : ℝ) / Real.sqrt (b.den : ℝ) := div_nonneg hbR hsb.le
    have hsq : ((a.num : ℝ) / Real.sqrt (a.den : ℝ)) ^ 2 ≤
        ((b.num : ℝ) / Real.sqrt (b.den : ℝ)) ^ 2 := by
      rw [div_pow, div_pow, Real.sq_sqrt hda.le, Real.sq_sqrt hdb.le,
        div_le_div_iff hda hdb]
      exact_mod_cast hcross
    have h2 := Real.sqrt_le_sqrt hsq
    rwa [Real.sqrt_sq hxa, Real.sqrt_sq hxb] at h2
  · rw [if_neg ha] at h
    push_neg at ha
    have haR : (a.num : ℝ) < 0 := by exact_mod_cast ha
    simp only [Bool.or_eq_true, decide_eq_true_eq] at h
    by_cases hb : 0 ≤ b.num
    · have hbR : (0 : ℝ) ≤ (b.num : ℝ) := by exact_mod_cast hb
      have hx : (a.num : ℝ) / Real.sqrt (a.den : ℝ) ≤ 0 :=
        div_nonpos_iff.mpr (Or.inr ⟨haR.le, hsa.le⟩)
      have hy : (0 : ℝ) ≤ (b.num : ℝ) / Real.sqrt (b.den : ℝ) := div_nonneg hbR hsb.le
      linarith
    · rcases h with hb2 | hcross
      · exact absurd hb2 hb
      · have hbneg : b.num < 0 := not_le.mp hb
        have hbR : (b.num : ℝ) < 0 := by exact_mod_cast hbneg
        have hnx : (0 : ℝ) ≤ -((a.num : ℝ) / Real.sqrt (a.den : ℝ)) := by
          rw [neg_nonneg]
          exact div_nonpos_iff.mpr (Or.inr ⟨haR.le, hsa.le⟩)
        have hny : (0 : ℝ) ≤ -((b.num : ℝ) / Real.sqrt (b.den : ℝ)) := by
          rw [neg_nonneg]
          exact div_nonpos_iff.mpr (Or.inr ⟨hbR.le, hsb.le⟩)
        have hsq : (-((b.num : ℝ) / Real.sqrt (b.den : ℝ))) ^ 2 ≤
            (-((a.num : ℝ) / Real.sqrt (a.den : ℝ))) ^ 2 := by
          rw [neg_sq, neg_sq, div_pow, div_pow, Real.sq_sqrt hdb.le,
            Real.sq_sqrt hda.le, div_le_div_iff hdb hda]
          exact_mod_cast hcross
        have h2 := Real.sqrt_le_sqrt hsq
        rw [Real.sqrt_sq hny, Real.sqrt_sq hnx] at h2
        linarith

/-! ## Loop lemmas -/

/-- The merge step always yields a list sorted by descending similarity. -/
theorem mergeTop_sorted (limit : Nat) (tm sc : List Scored) :
    List.Sorted simRel (mergeTop limit tm sc) := by
  haveI : IsTotal Scored simRel := ⟨fun a b => (simle_total b.sim a.sim).imp id id⟩
  haveI : IsTrans Scored simRel := ⟨fun a b c h1 h2 => simle_trans c.sim b.sim a.sim h2 h1⟩
  unfold mergeTop
  exact List.Pairwise.sublist (List.take_sublist _ _)
    (List.sorted_insertionSort simRel (tm ++ sc))

/-- The merge step never keeps more than `limit` entries. -/
theorem mergeTop_len (limit : Nat) (tm sc : List Scored) :
    (mergeTop limit tm sc).length ≤ limit := by
  unfold mergeTop
  rw [List.length_take]
  exact min_le_left _ _

/-- Every entry kept by the merge step came from the running list or the
freshly scored batch. -/
theorem mergeTop_subset (limit : Nat) (tm sc : List Scored) :
    ∀ x ∈ mergeTop limit tm sc, x ∈ tm ∨ x ∈ sc := by
  intro x hx
  unfold mergeTop at hx
  have hx2 := List.take_subset _ _ hx
  rw [List.mem_insertionSort] at hx2
  exact List.mem_append.mp hx2

/-- A batch holds at most 25 notes. -/
theorem batch_len_le (dbF : List SEntry) (offset : Nat) :
    ((dbF.drop offset).take 25).length ≤ 25 := by
  rw [List.length_take]
  exact min_le_left _ _

/-- The loop result does not depend on the fuel, as long as the fuel
covers the remaining iteration budget `10 - offset / 25`: the fuel of
`simLoop` is scaffolding, the `250 ≤ offset + 25` check of the source is
what stops the scan. -/
theorem simLoop_fuel_congr (dbF : List SEntry) (qv : List ℚ) (limit : Nat) :
    ∀ (k f1 f2 m : Nat) (tm : List Scored), m + k = 10 → m ≤ 9 →
      10 - m ≤ f1 → 10 - m ≤ f2 →
      simLoop dbF qv limit f1 (25 * m) tm = simLoop dbF qv limit f2 (25 * m) tm := by
  intro k
  induction k with
  | zero => intro f1 f2 m tm hmk hm _ _; omega
  | succ k ih =>
    intro f1 f2 m tm hmk hm hf1 hf2
    obtain ⟨f1p, rfl⟩ : ∃ f, f1 = f + 1 := ⟨f1 - 1, by omega⟩
    obtain ⟨f2p, rfl⟩ : ∃ f, f2 = f + 1 := ⟨f2 - 1, by omega⟩
    simp only [simLoop]
    by_cases hbe : ((dbF.drop (25 * m)).take 25).isEmpty = true
    · simp [hbe]
    · simp only [hbe, if_false, Bool.false_eq_true]
      by_cases hsc : stopCond limit
          (mergeTop limit tm (batchScores qv ((dbF.drop (25 * m)).take 25))) = true
      · simp [hsc]
      · simp only [hsc, if_false, Bool.false_eq_true]
        by_cases hof : 250 ≤ 25 * m + 25
        · simp [hof]
        · simp only [hof, if_false]
          have h25 : 25 * m + 25 = 25 * (m + 1) := by ring
          rw [h25, ih f1p f2p (m + 1)
            (mergeTop limit tm (batchScores qv ((dbF.drop (25 * m)).take 25)))
            (by omega) (by omega) (by omega) (by omega)]

/-- Batch-count and scanned-note bounds for the loop, at any reachable
offset `25 * m` with its matching fuel. -/
theorem simLoop_bounds_aux (dbF : List SEntry) (qv : List ℚ) (limit : Nat) :
    ∀ (k m : Nat) (tm : List Scored), m + k = 10 → m ≤ 9 →
      (simLoop dbF qv limit (10 - m) (25 * m) tm).2.1 ≤ 10 - m ∧
      (simLoop dbF qv limit (10 - m) (25 * m) tm).2.2 ≤ 250 - 25 * m := by
  intro k
  induction k with
  | zero => intro m tm hmk hm; omega
  | succ k ih =>
    intro m tm hmk hm
    have hfe : 10 - m = (9 - m) + 1 := by omega
    rw [hfe]
    simp only [simLoop]
    by_cases hbe : ((dbF.drop (25 * m)).take 25).isEmpty = true
    · simp [hbe]
    · simp only [hbe, if_false, Bool.false_eq_true]
      have hblen := batch_len_le dbF (25 * m)
      by_cases hsc : stopCond limit
          (mergeTop limit tm (batchScores qv ((dbF.drop (25 * m)).take 25))) = true
      · simp only [hsc, if_true]
        constructor
        · omega
        · omega
      · simp only [hsc, if_false, Bool.false_eq_true]
        by_cases hof : 250 ≤ 25 * m + 25
        · simp only [hof, if_true]
          constructor
          · omega
          · omega
        · simp only [hof, if_false]
          have h25 : 25 * m + 25 = 25 * (m + 1) := by ring
          have hfe2 : 9 - m = 10 - (m + 1) := by omega
          rw [h25, hfe2]
          obtain ⟨h1, h2⟩ := ih (m + 1)
            (mergeTop limit tm (batchScores qv ((dbF.drop (25 * m)).take 25)))
            (by omega) (by omega)
          refine ⟨?_, ?_⟩
          · dsimp only
            omega
          · dsimp only
            omega

/-- Sortedness and size invariant of the loop. -/
theorem simLoop_sorted_aux (dbF : List SEntry) (qv : List ℚ) (limit : Nat) :
    ∀ (k m : Nat) (tm : List Scored), m + k = 10 → m ≤ 9 →
      List.Sorted simRel tm → tm.length ≤ limit →
      List.Sorted simRel (simLoop dbF qv limit (10 - m) (25 * m) tm).1 ∧
      (simLoop dbF qv limit (10 - m) (25 * m) tm).1.length ≤ limit := by
  intro k
  induction k with
  | zero => intro m tm hmk hm _ _; omega
  | succ k ih =>
    intro m tm hmk hm hsorted hlen
    have hfe : 10 - m = (9 - m) + 1 := by omega
    rw [hfe]
    simp only [simLoop]
    by_cases hbe : ((dbF.drop (25 * m)).take 25).isEmpty = true
    · simp only [hbe, if_true]
      exact ⟨hsorted, hlen⟩
    · simp only [hbe, if_false, Bool.false_eq_true]
      by_cases hsc : stopCond limit
          (mergeTop limit tm (batchScores qv ((dbF.drop (25 * m)).take 25))) = true
      · simp only [hsc, if_true]
        exact ⟨mergeTop_sorted _ _ _, mergeTop_len _ _ _⟩
      · simp only [hsc, if_false, Bool.false_eq_true]
        by_cases hof : 250 ≤ 25 * m + 25
        · simp only [hof, if_true]
          exact ⟨mergeTop_sorted _ _ _, mergeTop_len _ _ _⟩
        · simp only [hof, if_false]
          have h25 : 25 * m + 25 = 25 * (m + 1) := by ring
          have hfe2 : 9 - m = 10 - (m + 1) := by omega
          rw [h25, hfe2]
          exact ih (m + 1)
            (mergeTop limit tm (batchScores qv ((dbF.drop (25 * m)).take 25)))
            (by omega) (by omega) (mergeTop_sorted _ _ _) (mergeTop_len _ _ _)

/-- Provenance invariant: every entry in the loop result was either
carried in or was scored from the scanned rows by `scoreEntry`. -/
theorem simLoop_prov_aux (dbF : List SEntry) (qv : List ℚ) (limit : Nat) :
    ∀ (k m : Nat) (tm : List Scored), m + k = 10 → m ≤ 9 →
      ∀ x ∈ (simLoop dbF qv limit (10 - m) (25 * m) tm).1,
        x ∈ tm ∨ ∃ e ∈ dbF, scoreEntry qv e = some x := by
  intro k
  induction k with
  | zero => intro m tm hmk hm; omega
  | succ k ih =>
    intro m tm hmk hm x hx
    have hbatch : ∀ y ∈ mergeTop limit tm (batchScores qv ((dbF.drop (25 * m)).take 25)),
        y ∈ tm ∨ ∃ e ∈ dbF, scoreEntry qv e = some y := by
      intro y hy
      rcases mergeTop_subset _ _ _ y hy with hy2 | hy2
      · exact Or.inl hy2
      · refine Or.inr ?_
        obtain ⟨e, he, hse⟩ := List.mem_filterMap.mp hy2
        exact ⟨e, List.drop_subset _ _ (List.take_subset _ _ he), hse⟩
    have hfe : 10 - m = (9 - m) + 1 := by omega
    rw [hfe] at hx
    simp only [simLoop] at hx
    by_cases hbe : ((dbF.drop (25 * m)).take 25).isEmpty = true
    · rw [if_pos hbe] at hx
      exact Or.inl hx
    · rw [if_neg hbe] at hx
      by_cases hsc : stopCond limit
          (mergeTop limit tm (batchScores qv ((dbF.drop (25 * m)).take 25))) = true
      · rw [if_pos hsc] at hx
        exact hbatch x hx
      · rw [if_neg hsc] at hx
        by_cases hof : 250 ≤ 25 * m + 25
        · rw [if_pos hof] at hx
          exact hbatch x hx
        · rw [if_neg hof] at hx
          have h25 : 25 * m + 25 = 25 * (m + 1) := by ring
          have hfe2 : 9 - m = 10 - (m + 1) := by omega
          rw [h25, hfe2] at hx
          rcases ih (m + 1)
              (mergeTop limit tm (batchScores qv ((dbF.drop (25 * m)).take 25)))
              (by omega) (by omega) x hx with hy | hy
          · exact hbatch x hy
          · exact Or.inr hy

/-! ## C4: the batched scan is bounded and terminates early -/

/-- Claim C4: at any reachable loop state (offset `25 * m`, `m ≤ 9`,
remaining budget `10 - m`), the scan fetches at most `10 - m` more
batches and scans at most `250 - 25 * m` more notes — in particular at
most 10 batches and 250 notes from the initial state — and it stops
immediately, fetching no further batch, as soon as the merged top list
holds exactly `limit` entries whose weakest (last) member's similarity
strictly exceeds 0.8 (`stopCond`). -/
theorem findSimilar_batch_bound (dbF : List SEntry) (qv : List ℚ) (limit : Nat)
    (hl : 0 < limit) (m : Nat) (hm : m ≤ 9) (tm : List Scored) :
    ((simLoop dbF qv limit (10 - m) (25 * m) tm).2.1 ≤ 10 - m ∧
     (simLoop dbF qv limit (10 - m) (25 * m) tm).2.2 ≤ 250 - 25 * m) ∧
    (∀ batch, batch = (dbF.drop (25 * m)).take 25 → batch.isEmpty = false →
      stopCond limit (mergeTop limit tm (batchScores qv batch)) = true →
      simLoop dbF qv limit (10 - m) (25 * m) tm =
        (mergeTop limit tm (batchScores qv batch), 1, batch.length)) := by
  constructor
  · exact simLoop_bounds_aux dbF qv limit (10 - m) m tm (by omega) hm
  · intro batch hbatch hbe hsc
    subst hbatch
    have hfe : 10 - m = (9 - m) + 1 := by omega
    rw [hfe]
    simp only [simLoop, hbe, Bool.false_eq_true, if_false, hsc, if_true]

/-- Witness for C4 at the initial state over an empty filtered table. -/
theorem findSimilar_batch_bound_witness :
    (simLoop [] [1] 1 (10 - 0) (25 * 0) []).2.1 ≤ 10 - 0 ∧
    (simLoop [] [1] 1 (10 - 0) (25 * 0) []).2.2 ≤ 250 - 25 * 0 :=
  (findSimilar_batch_bound [] [1] 1 (by decide) 0 (by decide) []).1

/-! ## C7: per-note scoring failures are contained -/

/-- Claim C7: a malformed embedding (NULL column, undecodable blob, short
vector) or a zero-magnitude vector (NaN cosine) makes `scoreEntry` return
`none` for that note only; dropping such a note from a batch does not
change the scores of the rest of the batch (the scan never aborts); and
every entry of the final ranking carries a well-defined similarity
produced by `scoreEntry` on a scanned row, so no NaN ever enters the
returned ranking. -/
theorem findSimilar_per_note_errors (qv : List ℚ) (limit : Nat) (hl : 0 < limit) :
    (∀ e : SEntry,
      e.embedding = none ∨ e.embedding = some Blob.malformed ∨ sumSq qv = 0 ∨
        (∃ v, e.embedding = some (Blob.vec v) ∧ sumSq v = 0) →
      scoreEntry qv e = none) ∧
    (∀ (xs ys : List SEntry) (e : SEntry), scoreEntry qv e = none →
      batchScores qv (xs ++ e :: ys) = batchScores qv (xs ++ ys)) ∧
    (∀ (db : List SEntry) (x : Scored), x ∈ topMatchesOf db qv limit →
      ∃ e ∈ simCandidates db, scoreEntry qv e = some x) := by
  refine ⟨?_, ?_, ?_⟩
  · intro e h
    rcases h with h | h | h | h
    · simp [scoreEntry, h]
    · simp [scoreEntry, h]
    · unfold scoreEntry
      cases he : e.embedding with
      | none => rfl
      | some b =>
        cases b with
        | malformed => rfl
        | vec ev =>
          dsimp only
          by_cases hlen : ev.length < qv.length
          · rw [if_pos hlen]
          · rw [if_neg hlen]
            have hz : sumSq qv * sumSq ev = 0 := by rw [h, zero_mul]
            rw [dif_pos hz]
    · obtain ⟨v, hv, hz⟩ := h
      unfold scoreEntry
      rw [hv]
      dsimp only
      by_cases hlen : v.length < qv.length
      · rw [if_pos hlen]
      · rw [if_neg hlen]
        have hz2 : sumSq qv * sumSq v = 0 := by rw [hz, mul_zero]
        rw [dif_pos hz2]
  · intro xs ys e h
    unfold batchScores
    rw [List.filterMap_append, List.filterMap_append, List.filterMap_cons, h]
  · intro db x hx
    have h := simLoop_prov_aux (simCandidates db) qv limit 10 0 [] (by omega) (by omega) x hx
    rcases h with h | h
    · exact absurd h (List.not_mem_nil x)
    · exact h

/-- Witness for C7: a malformed blob scores `none`. -/
theorem findSimilar_per_note_errors_witness :
    scoreEntry [1] ⟨7, "bad", some Blob.malformed, 0, 0⟩ = none :=
  (findSimilar_per_note_errors [1] 1 (by decide)).1
    ⟨7, "bad", some Blob.malformed, 0, 0⟩ (Or.inr (Or.inl rfl))

/-! ## C9: the similarity path returns at most `k` notes in
non-increasing cosine order -/

/-- Claim C9: the top-match list of the similarity path holds at most
`limit` entries and is sorted by non-increasing cosine similarity (stated
over the represented real values `num / sqrt den`), and on a cache miss
with a non-empty top list `findSimilar` returns exactly this list,
formatted in order. -/
theorem findSimilar_topk_sorted (db : List SEntry) (qv : List ℚ) (limit : Nat)
    (hl : 0 < limit) (cache : CacheT) :
    (topMatchesOf db qv limit).length ≤ limit ∧
    List.Sorted (fun a b : Scored =>
        (b.sim.num : ℝ) / Real.sqrt (b.sim.den : ℝ) ≤
          (a.sim.num : ℝ) / Real.sqrt (a.sim.den : ℝ))
      (topMatchesOf db qv limit) ∧
    (cacheGet cache (fingerprint qv limit) = none → topMatchesOf db qv limit ≠ [] →
      (findSimilar db cache (some qv) limit).1 =
        (topMatchesOf db qv limit).map (fun s => fmtEntry s.entry)) := by
  have haux := simLoop_sorted_aux (simCandidates db) qv limit 10 0 []
    (by omega) (by omega) (List.sorted_nil) (by simp)
  refine ⟨haux.2, ?_, ?_⟩
  · exact List.Pairwise.imp (fun hab => simle_sound hab) haux.1
  · intro hmiss hne
    unfold findSimilar
    simp only [hmiss]
    have hne2 : (topMatchesOf db qv limit).isEmpty = false := by
      cases h : topMatchesOf db qv limit with
      | nil => exact absurd h hne
      | cons a l => rfl
    simp only [hne2, Bool.false_eq_true, if_false]

/-- Witness for C9 over a one-note store. -/
theorem findSimilar_topk_sorted_witness :
    (topMatchesOf [⟨1, "n", some (Blob.vec [1]), 0, 0⟩] [1] 1).length ≤ 1 :=
  (findSimilar_topk_sorted [⟨1, "n", some (Blob.vec [1]), 0, 0⟩] [1] 1 (by decide) []).1

/-! ## C8: `findSimilar(null, k)` is the recency fallback -/

/-- Claim C8: with no query vector, `findSimilar` returns exactly the `k`
most recently created notes, newest first, for every store state: the
cache is neither read (the result is the same for every cache) nor
written (it is returned unchanged), and the result is the `k`-prefix of
the store sorted by descending creation time — sorted newest first, of
length `min k n`, and such that every returned note is at least as recent
as every note left out. -/
theorem findSimilar_recency_fallback (db : List SEntry) (cache : CacheT) (k : Nat) :
    (findSimilar db cache none k).2 = cache ∧
    (∀ cache2 : CacheT, (findSimilar db cache2 none k).1 = (findSimilar db cache none k).1) ∧
    (findSimilar db cache none k).1 = ((List.insertionSort recRel db).take k).map fmtEntry ∧
    List.Sorted (fun a b : RNote => b.created_at ≤ a.created_at)
      (findSimilar db cache none k).1 ∧
    (findSimilar db cache none k).1.length = min k db.length ∧
    (List.insertionSort recRel db =
      (List.insertionSort recRel db).take k ++ (List.insertionSort recRel db).drop k ∧
      ∀ a ∈ (List.insertionSort recRel db).take k,
        ∀ b ∈ (List.insertionSort recRel db).drop k, b.created_at ≤ a.created_at) ∧
    (List.insertionSort recRel db).Perm db := by
  haveI : IsTotal SEntry recRel := ⟨fun a b => le_total b.created_at a.created_at⟩
  haveI : IsTrans SEntry recRel := ⟨fun a b c h1 h2 => le_trans h2 h1⟩
  have hsorted : List.Sorted recRel (List.insertionSort recRel db) :=
    List.sorted_insertionSort recRel db
  have hsortedTake : List.Sorted recRel ((List.insertionSort recRel db).take k) :=
    List.Pairwise.sublist (List.take_sublist _ _) hsorted
  have hsplit := (List.take_append_drop k (List.insertionSort recRel db)).symm
  refine ⟨rfl, fun cache2 => rfl, rfl, ?_, ?_, ⟨hsplit, ?_⟩, List.perm_insertionSort recRel db⟩
  · exact List.Pairwise.map fmtEntry (fun a b h => h) hsortedTake
  · show (((List.insertionSort recRel db).take k).map fmtEntry).length = min k db.length
    rw [List.length_map, List.length_take, List.length_insertionSort]
  · have h2 := hsplit ▸ hsorted
    exact (List.pairwise_append.mp h2).2.2

/-! ## C5: similarity-cache capacity, eviction and invalidation -/

/-- Every single cache write keeps the size within 20. -/
theorem cacheSet_size_le (c : CacheT) (k : List ℚ × Nat) (v : List RNote)
    (hc : c.length ≤ 20) : (cacheSet c k v).length ≤ 20 := by
  have hmap : ∀ (c2 : CacheT), (mapSet c2 k v).length ≤ c2.length + 1 := by
    intro c2
    unfold mapSet
    by_cases hany : c2.any (fun p => decide (p.1 = k)) = true
    · rw [if_pos hany, List.length_map]
      omega
    · rw [if_neg hany, List.length_append]
      simp
  unfold cacheSet
  by_cases hfull : 20 ≤ c.length
  · rw [if_pos hfull]
    have := hmap c.tail
    have : c.tail.length = c.length - 1 := List.length_tail c
    have h2 := hmap c.tail
    omega
  · rw [if_neg hfull]
    have := hmap c
    omega

/-- Claim C5: starting from the empty cache, any sequence of cache
operations (the `set` of a similarity miss, the wholesale clear of
`updateEmbedding`) keeps at most 20 entries; inserting a fresh
fingerprint into a full 20-entry cache evicts exactly the first-inserted
entry (insertion order, not access order — `get` never reorders) and
appends the new one; and `updateEmbedding` with an embedding empties the
cache, so any subsequent lookup is a guaranteed miss. -/
theorem similarity_cache_bounded :
    (∀ ops : List CacheOp, (runOps ops).length ≤ 20) ∧
    (∀ (c : CacheT) (k : List ℚ × Nat) (v : List RNote), c.length = 20 →
      (∀ p ∈ c, p.1 ≠ k) → cacheSet c k v = c.tail ++ [(k, v)]) ∧
    (∀ (db : List SEntry) (cache : CacheT) (id : Nat) (v : List ℚ),
      (updateEmbedding db cache id (some v)).2.2 = [] ∧
      ∀ fp, cacheGet (updateEmbedding db cache id (some v)).2.2 fp = none) := by
  refine ⟨?_, ?_, ?_⟩
  · have hgen : ∀ (ops : List CacheOp) (c : CacheT), c.length ≤ 20 →
        (ops.foldl applyOp c).length ≤ 20 := by
      intro ops
      induction ops with
      | nil => intro c hc; exact hc
      | cons op rest ih =>
        intro c hc
        rw [List.foldl_cons]
        refine ih _ ?_
        cases op with
        | clearOp => simp [applyOp]
        | setOp k v => exact cacheSet_size_le c k v hc
    intro ops
    exact hgen ops [] (by simp)
  · intro c k v hlen hfresh
    unfold cacheSet
    rw [if_pos (by omega)]
    unfold mapSet
    have hany : (c.tail.any (fun p => decide (p.1 = k))) = false := by
      rw [List.any_eq_false]
      intro p hp
      have hp2 : p ∈ c := List.mem_of_mem_tail hp
      simp [hfresh p hp2]
    rw [if_neg (by simp [hany])]
  · intro db cache id v
    exact ⟨rfl, fun fp => rfl⟩

/-- Witness for C5: inserting a 21st fingerprint into a concrete full
cache of 20 entries evicts exactly the first-inserted entry. -/
theorem similarity_cache_bounded_witness :
    ((List.range 20).map
        (fun i => ((([(i : ℚ)], 0) : List ℚ × Nat), ([] : List RNote)))).length = 20 ∧
    cacheSet ((List.range 20).map
        (fun i => ((([(i : ℚ)], 0) : List ℚ × Nat), ([] : List RNote)))) ([99], 0) [] =
      ((List.range 20).map
        (fun i => ((([(i : ℚ)], 0) : List ℚ × Nat), ([] : List RNote)))).tail ++
        [((([99], 0) : List ℚ × Nat), ([] : List RNote))] :=
  ⟨by decide, (similarity_cache_bounded).2.1 _ _ _ (by decide) (by decide)⟩

end FieldNotes
